import Mathlib

/-!
Shallow embedding of the root-finding methods of `metodos_cap2.py`:
`bisseccao`, `regula_falsi`, `iterativo_linear`, `newton`, `secante`.

Modelling conventions:
* Real arithmetic is modelled over `ℚ` (exact arithmetic).  The user
  expression string together with `safe_eval` is modelled as a total
  function `ℚ → ℚ`, following the spec's treatment of expression
  evaluation as an external collaborator.
* Python exceptions are modelled with `Except Err`: the `ValueError`
  raised on a failed sign-change precondition becomes `Err.precondition`,
  and `ZeroDivisionError` (zero derivative in Newton, zero secant
  denominator, and Python's float division by zero in the regula falsi
  interpolation step) becomes `Err.numeric`.  A raised exception discards
  the rows accumulated so far, exactly as a Python `raise` does.
* The `float("nan")` stored in the `erro` field on the first bracket
  iteration is modelled as `Option.none`; later iterations store
  `some |c - x_prev|`.
* `max_iter` is a natural number; `for k in range(1, max_iter + 1)`
  becomes structural recursion on the remaining fuel, threading `k`.
-/

inductive Err where
  | precondition
  | numeric
deriving DecidableEq, Repr

/-- Row appended by `bisseccao` and `regula_falsi`:
`{"iter": k, "a": a, "b": b, "x": c, "f(x)": fc, "erro": err}`. -/
structure BracketRow where
  iter : ℕ
  a : ℚ
  b : ℚ
  x : ℚ
  fx : ℚ
  erro : Option ℚ
deriving DecidableEq, Repr

/-- Row appended by `iterativo_linear`:
`{"iter": k, "x": x, "g(x_prev)": x, "erro": err}` (the source stores the
same value `x` under both the `x` and `g(x_prev)` keys). -/
structure FixRow where
  iter : ℕ
  x : ℚ
  gx : ℚ
  erro : ℚ
deriving DecidableEq, Repr

/-- Row appended by `newton`:
`{"iter": k, "x": x_new, "f(x)": fx, "f'(x)": dfx, "erro": err}`. -/
structure NewtonRow where
  iter : ℕ
  x : ℚ
  fx : ℚ
  dfx : ℚ
  erro : ℚ
deriving DecidableEq, Repr

/-- Row appended by `secante`: `{"iter": k, "x_{k-1}": x_prev, "x_k": x,
"x_{k+1}": x_new, "f(x_k)": fx, "erro": err}`. -/
structure SecRow where
  iter : ℕ
  xkm1 : ℚ
  xk : ℚ
  xkp1 : ℚ
  fxk : ℚ
  erro : ℚ
deriving DecidableEq, Repr

def bRow0 : BracketRow := ⟨0, 0, 0, 0, 0, none⟩

def fRow0 : FixRow := ⟨0, 0, 0, 0⟩

def nRow0 : NewtonRow := ⟨0, 0, 0, 0, 0⟩

def sRow0 : SecRow := ⟨0, 0, 0, 0, 0, 0⟩

/-- The shared break test of the bracket methods:
`abs(fc) < tol or (x_prev is not None and abs(c - x_prev) < tol)`. -/
def brkStop (tol fc c : ℚ) (xPrev : Option ℚ) : Bool :=
  decide (|fc| < tol) ||
    (match xPrev with
     | some xp => decide (|c - xp| < tol)
     | none => false)

/-- Loop body of `bisseccao` (source lines 65-79), carrying the mutable
state `a, b, fa, fb, x_prev` and the iteration counter `k`. -/
def bisLoop (f : ℚ → ℚ) (tol : ℚ) (a b fa fb : ℚ) (xPrev : Option ℚ)
    (k fuel : ℕ) : List BracketRow :=
  match fuel with
  | 0 => []
  | fuel + 1 =>
    let c := (a + b) / 2
    let fc := f c
    let err := Option.map (fun xp => |c - xp|) xPrev
    let row : BracketRow := ⟨k, a, b, c, fc, err⟩
    if brkStop tol fc c xPrev then [row]
    else if fa * fc < 0 then
      row :: bisLoop f tol a c fa fc (some c) (k + 1) fuel
    else
      row :: bisLoop f tol c b fc fb (some c) (k + 1) fuel

/-- `bisseccao(f_expr, a, b, tol, max_iter)` from the source: checks the
sign-change precondition, then runs the midpoint loop. -/
def bisseccao (f : ℚ → ℚ) (a b tol : ℚ) (maxIter : ℕ) :
    Except Err (List BracketRow) :=
  let fa := f a
  let fb := f b
  if fa * fb > 0 then Except.error Err.precondition
  else Except.ok (bisLoop f tol a b fa fb none 1 maxIter)

/-- Loop body of `regula_falsi` (source lines 88-101).  Python raises
`ZeroDivisionError` on the float division when `fb - fa == 0`, modelled by
the explicit `Err.numeric` branch before the interpolation. -/
def rfLoop (f : ℚ → ℚ) (tol : ℚ) (a b fa fb : ℚ) (xPrev : Option ℚ)
    (k fuel : ℕ) : Except Err (List BracketRow) :=
  match fuel with
  | 0 => Except.ok []
  | fuel + 1 =>
    if fb - fa = 0 then Except.error Err.numeric
    else
      let c := b - fb * (b - a) / (fb - fa)
      let fc := f c
      let err := Option.map (fun xp => |c - xp|) xPrev
      let row : BracketRow := ⟨k, a, b, c, fc, err⟩
      if brkStop tol fc c xPrev then Except.ok [row]
      else if fa * fc < 0 then
        Except.map (fun rest => row :: rest)
          (rfLoop f tol a c fa fc (some c) (k + 1) fuel)
      else
        Except.map (fun rest => row :: rest)
          (rfLoop f tol c b fc fb (some c) (k + 1) fuel)

/-- `regula_falsi(f_expr, a, b, tol, max_iter)` from the source. -/
def regula_falsi (f : ℚ → ℚ) (a b tol : ℚ) (maxIter : ℕ) :
    Except Err (List BracketRow) :=
  let fa := f a
  let fb := f b
  if fa * fb > 0 then Except.error Err.precondition
  else rfLoop f tol a b fa fb none 1 maxIter

/-- Trace of the `(fa, fb)` pairs held at the start of each loop iteration
that `rfLoop` actually reaches (it mirrors `rfLoop` step for step); used to
state when the interpolation step is reached with `f(b) = f(a)`. -/
def rfReached (f : ℚ → ℚ) (tol : ℚ) (a b fa fb : ℚ) (xPrev : Option ℚ)
    (fuel : ℕ) : List (ℚ × ℚ) :=
  match fuel with
  | 0 => []
  | fuel + 1 =>
    (fa, fb) ::
      (if fb - fa = 0 then []
       else
        let c := b - fb * (b - a) / (fb - fa)
        let fc := f c
        if brkStop tol fc c xPrev then []
        else if fa * fc < 0 then
          rfReached f tol a c fa fc (some c) fuel
        else
          rfReached f tol c b fc fb (some c) fuel)

/-- The reached `(fa, fb)` trace of a `regula_falsi` invocation: empty when
the precondition check already rejects the bracket. -/
def rfReachedTop (f : ℚ → ℚ) (a b tol : ℚ) (maxIter : ℕ) : List (ℚ × ℚ) :=
  if f a * f b > 0 then []
  else rfReached f tol a b (f a) (f b) none maxIter

/-- Loop body of `iterativo_linear` (source lines 107-114). -/
def fixLoop (g : ℚ → ℚ) (tol xPrev : ℚ) (k fuel : ℕ) : List FixRow :=
  match fuel with
  | 0 => []
  | fuel + 1 =>
    let x := g xPrev
    let err := |x - xPrev|
    let row : FixRow := ⟨k, x, x, err⟩
    if err < tol then [row]
    else row :: fixLoop g tol x (k + 1) fuel

/-- `iterativo_linear(g_expr, x0, tol, max_iter)` from the source: no
precondition check, returns its rows directly (no failure mode). -/
def iterativo_linear (g : ℚ → ℚ) (x0 tol : ℚ) (maxIter : ℕ) : List FixRow :=
  fixLoop g tol x0 1 maxIter

/-- The orbit of `g` from `x0`: `gseq g x0 n` is the `n`-th fixed-point
iterate (`gseq 0 = x0`). -/
def gseq (g : ℚ → ℚ) (x0 : ℚ) : ℕ → ℚ
  | 0 => x0
  | n + 1 => g (gseq g x0 n)

/-- Loop body of `newton` (source lines 119-131). -/
def newtonLoop (f df : ℚ → ℚ) (tol x : ℚ) (k fuel : ℕ) :
    Except Err (List NewtonRow) :=
  match fuel with
  | 0 => Except.ok []
  | fuel + 1 =>
    let fx := f x
    let dfx := df x
    if dfx = 0 then Except.error Err.numeric
    else
      let xNew := x - fx / dfx
      let err := |xNew - x|
      let row : NewtonRow := ⟨k, xNew, fx, dfx, err⟩
      if |fx| < tol ∨ err < tol then Except.ok [row]
      else
        Except.map (fun rest => row :: rest)
          (newtonLoop f df tol xNew (k + 1) fuel)

/-- `newton(f_expr, df_expr, x0, tol, max_iter)` from the source. -/
def newton (f df : ℚ → ℚ) (x0 tol : ℚ) (maxIter : ℕ) :
    Except Err (List NewtonRow) :=
  newtonLoop f df tol x0 1 maxIter

/-- Trace of the iterates `x` at which each reached iteration of the
Newton loop begins (mirrors `newtonLoop` step for step). -/
def newtonReached (f df : ℚ → ℚ) (tol x : ℚ) (fuel : ℕ) : List ℚ :=
  match fuel with
  | 0 => []
  | fuel + 1 =>
    x ::
      (if df x = 0 then []
       else
        let fx := f x
        let xNew := x - fx / df x
        if |fx| < tol ∨ |xNew - x| < tol then []
        else newtonReached f df tol xNew fuel)

/-- One Newton update `x_new = x - f(x)/f'(x)`. -/
def nstep (f df : ℚ → ℚ) (x : ℚ) : ℚ := x - f x / df x

/-- The row the Newton loop appends when the iteration with counter `k`
starts from estimate `x`: the committed `x` field is the updated estimate
`nstep f df x`, while the `fx` field holds the pre-update value `f x`. -/
def mkNRow (f df : ℚ → ℚ) (x : ℚ) (k : ℕ) : NewtonRow :=
  ⟨k, nstep f df x, f x, df x, |nstep f df x - x|⟩

/-- The pre-update estimate at the start of Newton iteration `i`
(0-based): `npre 0 = x0`, `npre (i+1) = nstep (npre i)`. -/
def npre (f df : ℚ → ℚ) (x0 : ℚ) : ℕ → ℚ
  | 0 => x0
  | i + 1 => nstep f df (npre f df x0 i)

/-- Loop body of `secante` (source lines 138-150), carrying the mutable
state `x_prev, x, f_prev, fx` and the counter `k`. -/
def secLoop (f : ℚ → ℚ) (tol xPrev x fPrev fx : ℚ) (k fuel : ℕ) :
    Except Err (List SecRow) :=
  match fuel with
  | 0 => Except.ok []
  | fuel + 1 =>
    let denom := fx - fPrev
    if denom = 0 then Except.error Err.numeric
    else
      let xNew := x - fx * (x - xPrev) / denom
      let err := |xNew - x|
      let row : SecRow := ⟨k, xPrev, x, xNew, fx, err⟩
      if |fx| < tol ∨ err < tol then Except.ok [row]
      else
        Except.map (fun rest => row :: rest)
          (secLoop f tol x xNew fx (f xNew) (k + 1) fuel)

/-- `secante(f_expr, x0, x1, tol, max_iter)` from the source. -/
def secante (f : ℚ → ℚ) (x0 x1 tol : ℚ) (maxIter : ℕ) :
    Except Err (List SecRow) :=
  secLoop f tol x0 x1 (f x0) (f x1) 1 maxIter

/-- Trace of the `(f_prev, fx)` pairs held at the start of each reached
iteration of the secant loop (mirrors `secLoop` step for step). -/
def secReached (f : ℚ → ℚ) (tol xPrev x fPrev fx : ℚ) (fuel : ℕ) :
    List (ℚ × ℚ) :=
  match fuel with
  | 0 => []
  | fuel + 1 =>
    (fPrev, fx) ::
      (if fx - fPrev = 0 then []
       else
        let xNew := x - fx * (x - xPrev) / (fx - fPrev)
        if |fx| < tol ∨ |xNew - x| < tol then []
        else secReached f tol x xNew fx (f xNew) fuel)

example : bisseccao (fun x => x - 1) 0 4 (1/2) 3 =
    Except.ok [⟨1, 0, 4, 2, 1, none⟩, ⟨2, 0, 2, 1, 0, some 1⟩] := by
  norm_num [bisseccao, bisLoop, brkStop, abs_of_nonneg, abs_of_nonpos]

example : newton (fun x => x - 1) (fun _ => 1) 0 1 3 =
    Except.ok [⟨1, 1, -1, 1, 1⟩, ⟨2, 1, 0, 1, 0⟩] := by
  norm_num [newton, newtonLoop, Except.map, abs_of_nonneg, abs_of_nonpos]

example : secante (fun _ => (0 : ℚ)) 0 1 1 5 = Except.error Err.numeric := by
  norm_num [secante, secLoop]

example : regula_falsi (fun x => x - 1) 0 4 (1/2) 3 =
    Except.ok [⟨1, 0, 4, 1, 0, none⟩] := by
  norm_num [regula_falsi, rfLoop, brkStop, abs_of_nonneg, abs_of_nonpos]

example : iterativo_linear (fun x => x / 2) 8 1 10 =
    [⟨1, 4, 4, 4⟩, ⟨2, 2, 2, 2⟩, ⟨3, 1, 1, 1⟩, ⟨4, 1/2, 1/2, 1/2⟩] := by
  norm_num [iterativo_linear, fixLoop, abs_of_nonneg, abs_of_nonpos]

theorem exceptMap_eq_error {α β : Type} (g : α → β) (e : Except Err α)
    (err : Err) : Except.map g e = Except.error err ↔ e = Except.error err := by
  cases e <;> simp [Except.map]

theorem exceptMap_eq_ok {α β : Type} (g : α → β) (e : Except Err α) (l : β) :
    Except.map g e = Except.ok l ↔ ∃ l0, e = Except.ok l0 ∧ g l0 = l := by
  cases e <;> simp [Except.map]

theorem rfLoop_ne_pre (f : ℚ → ℚ) (tol : ℚ) :
    ∀ (fuel : ℕ) (a b fa fb : ℚ) (xPrev : Option ℚ) (k : ℕ),
      rfLoop f tol a b fa fb xPrev k fuel ≠ Except.error Err.precondition := by
  intro fuel
  induction fuel with
  | zero => intro a b fa fb xPrev k h; simp [rfLoop] at h
  | succ n ih =>
    intro a b fa fb xPrev k h
    simp only [rfLoop] at h
    split_ifs at h with h1 h2 h3 <;>
      first
        | exact ih _ _ _ _ _ _ ((exceptMap_eq_error _ _ _).mp h)
        | simp at h

/-- C1: for every `f`, bracket `[a, b]`, tolerance and iteration cap, the
`bisseccao` and `regula_falsi` invocations fail with the precondition error
(and hence return no iteration sequence) if and only if `f(a)·f(b) > 0`;
when `f(a)·f(b) ≤ 0` (including exactly zero) no precondition error is
raised. -/
theorem bracket_precondition_error_iff (f : ℚ → ℚ) (a b tol : ℚ) (m : ℕ) :
    (bisseccao f a b tol m = Except.error Err.precondition ↔ f a * f b > 0) ∧
    (regula_falsi f a b tol m = Except.error Err.precondition ↔
      f a * f b > 0) := by
  constructor
  · simp only [bisseccao]
    split_ifs with h
    · simpa using h
    · simpa using h
  · simp only [regula_falsi]
    split_ifs with h
    · simpa using h
    · exact ⟨fun hh => absurd hh (rfLoop_ne_pre f tol m a b (f a) (f b) none 1),
        fun hh => absurd hh h⟩

theorem newtonLoop_ne_pre (f df : ℚ → ℚ) (tol : ℚ) :
    ∀ (fuel : ℕ) (x : ℚ) (k : ℕ),
      newtonLoop f df tol x k fuel ≠ Except.error Err.precondition := by
  intro fuel
  induction fuel with
  | zero => intro x k h; simp [newtonLoop] at h
  | succ n ih =>
    intro x k h
    simp only [newtonLoop] at h
    split_ifs at h with h1 h2 <;>
      first
        | exact ih _ _ ((exceptMap_eq_error _ _ _).mp h)
        | simp at h

theorem newtonLoop_numeric_iff (f df : ℚ → ℚ) (tol : ℚ) :
    ∀ (fuel : ℕ) (x : ℚ) (k : ℕ),
      newtonLoop f df tol x k fuel = Except.error Err.numeric ↔
        ∃ y ∈ newtonReached f df tol x fuel, df y = 0 := by
  intro fuel
  induction fuel with
  | zero => intro x k; simp [newtonLoop, newtonReached]
  | succ n ih =>
    intro x k
    simp only [newtonLoop, newtonReached]
    split_ifs with h1 h2
    · simp [h1]
    · simp [h1]
    · rw [exceptMap_eq_error, ih _ (k + 1)]
      simp [h1]

/-- C3: the Newton invocation raises the `NumericError` if and only if some
iterate reached by the loop has derivative exactly `0`; otherwise the
iteration sequence is returned normally. -/
theorem newton_numeric_error_iff (f df : ℚ → ℚ) (x0 tol : ℚ) (m : ℕ) :
    (newton f df x0 tol m = Except.error Err.numeric ↔
      ∃ x ∈ newtonReached f df tol x0 m, df x = 0) ∧
    ((¬ ∃ x ∈ newtonReached f df tol x0 m, df x = 0) →
      ∃ rows, newton f df x0 tol m = Except.ok rows) := by
  constructor
  · exact newtonLoop_numeric_iff f df tol m x0 1
  · intro hno
    cases hres : newton f df x0 tol m with
    | ok rows => exact ⟨rows, rfl⟩
    | error e =>
      cases e with
      | precondition => exact absurd hres (newtonLoop_ne_pre f df tol m x0 1)
      | numeric =>
        exact absurd ((newtonLoop_numeric_iff f df tol m x0 1).mp hres) hno

/-- Witness for C3: a Newton run whose reached iterates all have nonzero
derivative returns an iteration sequence normally. -/
theorem newton_numeric_error_iff_witness :
    (¬ ∃ x ∈ newtonReached (fun x => x - 1) (fun _ => 1) 1 0 3,
        (fun _ : ℚ => (1 : ℚ)) x = 0) ∧
    ∃ rows, newton (fun x => x - 1) (fun _ => 1) 0 1 3 = Except.ok rows := by
  have h : ¬ ∃ x ∈ newtonReached (fun x => x - 1) (fun _ => 1) 1 0 3,
      (fun _ : ℚ => (1 : ℚ)) x = 0 := by
    norm_num [newtonReached, abs_of_nonneg, abs_of_nonpos]
  exact ⟨h,
    (newton_numeric_error_iff (fun x => x - 1) (fun _ => 1) 0 1 3).2 h⟩

theorem secLoop_ne_pre (f : ℚ → ℚ) (tol : ℚ) :
    ∀ (fuel : ℕ) (xPrev x fPrev fx : ℚ) (k : ℕ),
      secLoop f tol xPrev x fPrev fx k fuel ≠ Except.error Err.precondition := by
  intro fuel
  induction fuel with
  | zero => intro xPrev x fPrev fx k h; simp [secLoop] at h
  | succ n ih =>
    intro xPrev x fPrev fx k h
    simp only [secLoop] at h
    split_ifs at h with h1 h2 <;>
      first
        | exact ih _ _ _ _ _ ((exceptMap_eq_error _ _ _).mp h)
        | simp at h

theorem secLoop_numeric_iff (f : ℚ → ℚ) (tol : ℚ) :
    ∀ (fuel : ℕ) (xPrev x fPrev fx : ℚ) (k : ℕ),
      secLoop f tol xPrev x fPrev fx k fuel = Except.error Err.numeric ↔
        ∃ p ∈ secReached f tol xPrev x fPrev fx fuel, p.2 - p.1 = 0 := by
  intro fuel
  induction fuel with
  | zero => intro xPrev x fPrev fx k; simp [secLoop, secReached]
  | succ n ih =>
    intro xPrev x fPrev fx k
    simp only [secLoop, secReached]
    split_ifs with h1 h2
    · simp [h1]
    · simp [h1]
    · rw [exceptMap_eq_error, ih _ _ _ _ (k + 1)]
      simp [h1]

/-- C4: the secant invocation raises the `NumericError` if and only if at
the start of some reached iteration the two maintained function values are
exactly equal (the denominator `fx - f_prev` is `0`); otherwise the
iteration sequence is returned normally. -/
theorem secante_numeric_error_iff (f : ℚ → ℚ) (x0 x1 tol : ℚ) (m : ℕ) :
    (secante f x0 x1 tol m = Except.error Err.numeric ↔
      ∃ p ∈ secReached f tol x0 x1 (f x0) (f x1) m, p.2 - p.1 = 0) ∧
    ((¬ ∃ p ∈ secReached f tol x0 x1 (f x0) (f x1) m, p.2 - p.1 = 0) →
      ∃ rows, secante f x0 x1 tol m = Except.ok rows) := by
  constructor
  · exact secLoop_numeric_iff f tol m x0 x1 (f x0) (f x1) 1
  · intro hno
    cases hres : secante f x0 x1 tol m with
    | ok rows => exact ⟨rows, rfl⟩
    | error e =>
      cases e with
      | precondition =>
        exact absurd hres (secLoop_ne_pre f tol m x0 x1 (f x0) (f x1) 1)
      | numeric =>
        exact absurd
          ((secLoop_numeric_iff f tol m x0 x1 (f x0) (f x1) 1).mp hres) hno

/-- Witness for C4: a secant run whose reached iterations all have distinct
consecutive function values returns an iteration sequence normally. -/
theorem secante_numeric_error_iff_witness :
    (¬ ∃ p ∈ secReached (fun x => x) 2 0 1 ((fun x : ℚ => x) 0)
        ((fun x : ℚ => x) 1) 4, p.2 - p.1 = 0) ∧
    ∃ rows, secante (fun x => x) 0 1 2 4 = Except.ok rows := by
  have h : ¬ ∃ p ∈ secReached (fun x => x) 2 0 1 ((fun x : ℚ => x) 0)
      ((fun x : ℚ => x) 1) 4, p.2 - p.1 = 0 := by
    norm_num [secReached, abs_of_nonneg, abs_of_nonpos]
  exact ⟨h, (secante_numeric_error_iff (fun x => x) 0 1 2 4).2 h⟩

theorem rfLoop_numeric_of_reached (f : ℚ → ℚ) (tol : ℚ) :
    ∀ (fuel : ℕ) (a b fa fb : ℚ) (xPrev : Option ℚ) (k : ℕ),
      (∃ p ∈ rfReached f tol a b fa fb xPrev fuel, p.2 = p.1) →
      rfLoop f tol a b fa fb xPrev k fuel = Except.error Err.numeric := by
  intro fuel
  induction fuel with
  | zero => intro a b fa fb xPrev k h; simp [rfReached] at h
  | succ n ih =>
    intro a b fa fb xPrev k h
    simp only [rfReached] at h
    simp only [rfLoop]
    split_ifs at h ⊢ with h1 h2 h3
    · rfl
    · rcases h with ⟨p, hp, hpe⟩
      rw [List.mem_singleton] at hp
      subst hp
      exact absurd (sub_eq_zero.mpr hpe) h1
    · rcases h with ⟨p, hp, hpe⟩
      rcases List.mem_cons.mp hp with hp0 | hptail
      · subst hp0
        exact absurd (sub_eq_zero.mpr hpe) h1
      · exact (exceptMap_eq_error _ _ _).mpr (ih _ _ _ _ _ (k + 1) ⟨p, hptail, hpe⟩)
    · rcases h with ⟨p, hp, hpe⟩
      rcases List.mem_cons.mp hp with hp0 | hptail
      · subst hp0
        exact absurd (sub_eq_zero.mpr hpe) h1
      · exact (exceptMap_eq_error _ _ _).mpr (ih _ _ _ _ _ (k + 1) ⟨p, hptail, hpe⟩)

/-- C2: whenever some iteration of a `regula_falsi` invocation reaches the
interpolation step with `f(b) = f(a)` exactly, the invocation fails with
the `NumericError` (distinct from the precondition error); the division by
zero therefore never propagates an estimate into a returned iteration
sequence. -/
theorem rf_zero_denominator_raises (f : ℚ → ℚ) (a b tol : ℚ) (m : ℕ)
    (h : ∃ p ∈ rfReachedTop f a b tol m, p.2 = p.1) :
    regula_falsi f a b tol m = Except.error Err.numeric := by
  simp only [rfReachedTop] at h
  simp only [regula_falsi]
  split_ifs at h ⊢ with hpre
  · simp at h
  · exact rfLoop_numeric_of_reached f tol m a b (f a) (f b) none 1 h

/-- Witness for C2: with `f ≡ 0` on the bracket `[0, 1]` the first regula
falsi iteration is reached with `f(b) = f(a) = 0`, and the invocation
raises the numeric error. -/
theorem rf_zero_denominator_raises_witness :
    (∃ p ∈ rfReachedTop (fun _ => (0 : ℚ)) 0 1 1 1, p.2 = p.1) ∧
    regula_falsi (fun _ => (0 : ℚ)) 0 1 1 1 = Except.error Err.numeric := by
  have h : ∃ p ∈ rfReachedTop (fun _ => (0 : ℚ)) 0 1 1 1, p.2 = p.1 := by
    refine ⟨(0, 0), ?_, rfl⟩
    norm_num [rfReachedTop, rfReached]
  exact ⟨h, rf_zero_denominator_raises (fun _ => (0 : ℚ)) 0 1 1 1 h⟩

theorem gseq_shift (g : ℚ → ℚ) (x0 : ℚ) :
    ∀ n, gseq g (g x0) n = gseq g x0 (n + 1) := by
  intro n
  induction n with
  | zero => rfl
  | succ n ih => simp [gseq, ih]

theorem fixLoop_getD (g : ℚ → ℚ) (tol : ℚ) :
    ∀ (fuel : ℕ) (x : ℚ) (k i : ℕ), i < (fixLoop g tol x k fuel).length →
      (fixLoop g tol x k fuel).getD i fRow0 =
        ⟨k + i, gseq g x (i + 1), gseq g x (i + 1),
          |gseq g x (i + 1) - gseq g x i|⟩ := by
  intro fuel
  induction fuel with
  | zero => intro x k i h; simp [fixLoop] at h
  | succ n ih =>
    intro x k i h
    simp only [fixLoop] at h ⊢
    split_ifs at h ⊢ with hstop
    · have hi : i = 0 := by
        simp only [List.length_singleton] at h
        omega
      subst hi
      simp [gseq]
    · cases i with
      | zero => simp [gseq]
      | succ j =>
        have hj : j < (fixLoop g tol (g x) (k + 1) n).length := by
          simpa using h
        rw [List.getD_cons_succ, ih (g x) (k + 1) j hj]
        simp only [FixRow.mk.injEq]
        refine ⟨by omega, ?_, ?_, ?_⟩ <;> simp [gseq_shift]

theorem fixLoop_length_le (g : ℚ → ℚ) (tol : ℚ) :
    ∀ (fuel : ℕ) (x : ℚ) (k : ℕ), (fixLoop g tol x k fuel).length ≤ fuel := by
  intro fuel
  induction fuel with
  | zero => intro x k; simp [fixLoop]
  | succ n ih =>
    intro x k
    simp only [fixLoop]
    split_ifs with hstop
    · simp
    · have := ih (g x) (k + 1)
      simp only [List.length_cons]
      omega

theorem fixLoop_ne_nil (g : ℚ → ℚ) (tol : ℚ) :
    ∀ (fuel : ℕ) (x : ℚ) (k : ℕ), 0 < fuel → fixLoop g tol x k fuel ≠ [] := by
  intro fuel x k hf
  cases fuel with
  | zero => omega
  | succ n =>
    simp only [fixLoop]
    split_ifs with hstop <;> simp

theorem fixLoop_not_stop (g : ℚ → ℚ) (tol : ℚ) :
    ∀ (fuel : ℕ) (x : ℚ) (k i : ℕ), i + 1 < (fixLoop g tol x k fuel).length →
      ¬ ((fixLoop g tol x k fuel).getD i fRow0).erro < tol := by
  intro fuel
  induction fuel with
  | zero => intro x k i h; simp [fixLoop] at h
  | succ n ih =>
    intro x k i h
    simp only [fixLoop] at h ⊢
    split_ifs at h ⊢ with hstop
    · simp only [List.length_singleton] at h
      omega
    · cases i with
      | zero => simpa using hstop
      | succ j =>
        have hj : j + 1 < (fixLoop g tol (g x) (k + 1) n).length := by
          simpa using h
        rw [List.getD_cons_succ]
        exact ih (g x) (k + 1) j hj

theorem fixLoop_last_stop (g : ℚ → ℚ) (tol : ℚ) :
    ∀ (fuel : ℕ) (x : ℚ) (k : ℕ), (fixLoop g tol x k fuel).length < fuel →
      ((fixLoop g tol x k fuel).getD
        ((fixLoop g tol x k fuel).length - 1) fRow0).erro < tol := by
  intro fuel
  induction fuel with
  | zero => intro x k h; simp [fixLoop] at h
  | succ n ih =>
    intro x k h
    simp only [fixLoop] at h ⊢
    split_ifs at h ⊢ with hstop
    · simpa using hstop
    · have hr : (fixLoop g tol (g x) (k + 1) n).length < n := by
        simpa using h
      have hne : fixLoop g tol (g x) (k + 1) n ≠ [] :=
        fixLoop_ne_nil g tol n (g x) (k + 1) (by omega)
      have hlen : (fixLoop g tol (g x) (k + 1) n).length ≠ 0 := by
        simpa [List.length_eq_zero] using hne
      rw [List.length_cons]
      have hidx : (fixLoop g tol (g x) (k + 1) n).length + 1 - 1 =
          ((fixLoop g tol (g x) (k + 1) n).length - 1) + 1 := by omega
      rw [hidx, List.getD_cons_succ]
      exact ih (g x) (k + 1) hr

/-- C9: full characterization of the fixed-point method: for `tol` and a
positive `max_iter`, the `i`-th record (0-based) of
`iterativo_linear g x0 tol m` is
`{iter := i+1, x := g^(i+1)(x0), g(x_prev) := g^(i+1)(x0),
erro := |g^(i+1)(x0) - g^i(x0)|}` (so `x_prev = x0` on the first
iteration), the sequence is nonempty, its length never exceeds `max_iter`,
no iteration before the last satisfies `erro < tol`, and if the loop
stopped before `max_iter` the last iteration does satisfy `erro < tol`.
The Lean model of `iterativo_linear` is a total function into a plain
list: it checks no precondition and has no failure mode, and no divergence
cap beyond `max_iter` exists. -/
theorem fixed_point_characterization (g : ℚ → ℚ) (x0 tol : ℚ) (m : ℕ)
    (hm : 0 < m) :
    (∀ i, i < (iterativo_linear g x0 tol m).length →
      (iterativo_linear g x0 tol m).getD i fRow0 =
        ⟨i + 1, gseq g x0 (i + 1), gseq g x0 (i + 1),
          |gseq g x0 (i + 1) - gseq g x0 i|⟩) ∧
    1 ≤ (iterativo_linear g x0 tol m).length ∧
    (iterativo_linear g x0 tol m).length ≤ m ∧
    (∀ i, i + 1 < (iterativo_linear g x0 tol m).length →
      ¬ ((iterativo_linear g x0 tol m).getD i fRow0).erro < tol) ∧
    ((iterativo_linear g x0 tol m).length < m →
      ((iterativo_linear g x0 tol m).getD
        ((iterativo_linear g x0 tol m).length - 1) fRow0).erro < tol) := by
  refine ⟨?_, ?_, ?_, ?_, ?_⟩
  · intro i hi
    have h := fixLoop_getD g tol m x0 1 i hi
    simpa [Nat.add_comm, iterativo_linear] using h
  · have hne := fixLoop_ne_nil g tol m x0 1 hm
    have hz : (iterativo_linear g x0 tol m).length ≠ 0 := by
      simpa [iterativo_linear, List.length_eq_zero] using hne
    omega
  · exact fixLoop_length_le g tol m x0 1
  · exact fun i hi => fixLoop_not_stop g tol m x0 1 i hi
  · exact fun h => fixLoop_last_stop g tol m x0 1 h

/-- Witness for C9: applying the characterization to
`g = fun x => x / 2`, `x0 = 8`, `tol = 1`, `max_iter = 10` (a run that
converges after four iterations). -/
theorem fixed_point_characterization_witness :
    0 < 10 ∧ 1 ≤ (iterativo_linear (fun x => x / 2) 8 1 10).length ∧
      (iterativo_linear (fun x => x / 2) 8 1 10).length ≤ 10 :=
  ⟨Nat.succ_pos 9,
    (fixed_point_characterization (fun x => x / 2) 8 1 10 (Nat.succ_pos 9)).2.1,
    (fixed_point_characterization (fun x => x / 2) 8 1 10
      (Nat.succ_pos 9)).2.2.1⟩

theorem bisLoop_width (f : ℚ → ℚ) (tol : ℚ) :
    ∀ (fuel : ℕ) (a b fa fb : ℚ) (xPrev : Option ℚ) (k i : ℕ),
      i < (bisLoop f tol a b fa fb xPrev k fuel).length →
      ((bisLoop f tol a b fa fb xPrev k fuel).getD i bRow0).b -
        ((bisLoop f tol a b fa fb xPrev k fuel).getD i bRow0).a =
        (b - a) / 2 ^ i := by
  intro fuel
  induction fuel with
  | zero => intro a b fa fb xPrev k i h; simp [bisLoop] at h
  | succ n ih =>
    intro a b fa fb xPrev k i h
    simp only [bisLoop] at h ⊢
    split_ifs at h ⊢ with hstop hbranch
    · have hi : i = 0 := by
        simp only [List.length_singleton] at h
        omega
      subst hi
      simp
    · cases i with
      | zero => simp
      | succ j =>
        have hj : j < (bisLoop f tol a ((a + b) / 2) fa (f ((a + b) / 2))
            (some ((a + b) / 2)) (k + 1) n).length := by simpa using h
        rw [List.getD_cons_succ, ih _ _ _ _ _ _ j hj, pow_succ]
        ring
    · cases i with
      | zero => simp
      | succ j =>
        have hj : j < (bisLoop f tol ((a + b) / 2) b (f ((a + b) / 2)) fb
            (some ((a + b) / 2)) (k + 1) n).length := by simpa using h
        rw [List.getD_cons_succ, ih _ _ _ _ _ _ j hj, pow_succ]
        ring

/-- C7: in every bisection invocation that returns a sequence, the bracket
width recorded at iteration `k+1` is exactly half the width recorded at
iteration `k` (exact arithmetic). -/
theorem bisseccao_width_halved (f : ℚ → ℚ) (a b tol : ℚ) (m : ℕ)
    (rows : List BracketRow) (hok : bisseccao f a b tol m = Except.ok rows) :
    ∀ i, i + 1 < rows.length →
      (rows.getD (i + 1) bRow0).b - (rows.getD (i + 1) bRow0).a =
        ((rows.getD i bRow0).b - (rows.getD i bRow0).a) / 2 := by
  intro i hi
  simp only [bisseccao] at hok
  split_ifs at hok with hpre
  have hrows : bisLoop f tol a b (f a) (f b) none 1 m = rows := by
    first
      | exact hok
      | simpa using hok
  subst hrows
  rw [bisLoop_width f tol m a b (f a) (f b) none 1 (i + 1) hi,
    bisLoop_width f tol m a b (f a) (f b) none 1 i (by omega), pow_succ]
  ring

/-- Witness for C7: a concrete bisection run of two iterations whose second
recorded width, `2`, is half the first recorded width, `4`. -/
theorem bisseccao_width_halved_witness :
    bisseccao (fun x => x - 1) 0 4 (1/2) 3 =
      Except.ok [⟨1, 0, 4, 2, 1, none⟩, ⟨2, 0, 2, 1, 0, some 1⟩] ∧
    (0 + 1 < ([⟨1, 0, 4, 2, 1, none⟩,
        ⟨2, 0, 2, 1, 0, some 1⟩] : List BracketRow).length) ∧
    (([⟨1, 0, 4, 2, 1, none⟩, ⟨2, 0, 2, 1, 0, some 1⟩] :
        List BracketRow).getD 1 bRow0).b -
      (([⟨1, 0, 4, 2, 1, none⟩, ⟨2, 0, 2, 1, 0, some 1⟩] :
        List BracketRow).getD 1 bRow0).a =
      ((([⟨1, 0, 4, 2, 1, none⟩, ⟨2, 0, 2, 1, 0, some 1⟩] :
        List BracketRow).getD 0 bRow0).b -
      (([⟨1, 0, 4, 2, 1, none⟩, ⟨2, 0, 2, 1, 0, some 1⟩] :
        List BracketRow).getD 0 bRow0).a) / 2 := by
  have hok : bisseccao (fun x => x - 1) 0 4 (1/2) 3 =
      Except.ok [⟨1, 0, 4, 2, 1, none⟩, ⟨2, 0, 2, 1, 0, some 1⟩] := by
    norm_num [bisseccao, bisLoop, brkStop, abs_of_nonneg, abs_of_nonpos]
  exact ⟨hok, by norm_num,
    bisseccao_width_halved (fun x => x - 1) 0 4 (1/2) 3 _ hok 0 (by norm_num)⟩

theorem bisLoop_sign (f : ℚ → ℚ) (tol : ℚ) (htol : 0 < tol) :
    ∀ (fuel : ℕ) (a b : ℚ) (xPrev : Option ℚ) (k : ℕ),
      f a * f b < 0 →
      ∀ r ∈ bisLoop f tol a b (f a) (f b) xPrev k fuel,
        f r.a * f r.b ≤ 0 := by
  intro fuel
  induction fuel with
  | zero => intro a b xPrev k hab r hr; simp [bisLoop] at hr
  | succ n ih =>
    intro a b xPrev k hab r hr
    simp only [bisLoop] at hr
    split_ifs at hr with hstop hbranch
    · rw [List.mem_singleton] at hr
      subst hr
      exact hab.le
    · rcases List.mem_cons.mp hr with hr0 | hrtail
      · subst hr0
        exact hab.le
      · exact ih _ _ _ _ hbranch r hrtail
    · rcases List.mem_cons.mp hr with hr0 | hrtail
      · subst hr0
        exact hab.le
      · have hfc : ¬ |f ((a + b) / 2)| < tol := fun hlt =>
          hstop (by simp [brkStop, hlt])
        have hfc0 : f ((a + b) / 2) ≠ 0 := fun h0 =>
          hfc (by rw [h0]; simpa using htol)
        have hfa0 : f a ≠ 0 := by
          intro h0
          rw [h0, zero_mul] at hab
          exact absurd hab (lt_irrefl 0)
        have hpos : 0 < f a * f ((a + b) / 2) :=
          (not_lt.mp hbranch).lt_of_ne
            (Ne.symm (mul_ne_zero hfa0 hfc0))
        rcases mul_pos_iff.mp hpos with ⟨ha, hc⟩ | ⟨ha, hc⟩
        · have hb : f b < 0 := by nlinarith
          exact ih _ _ _ _ (mul_neg_of_pos_of_neg hc hb) r hrtail
        · have hb : 0 < f b := by nlinarith
          exact ih _ _ _ _ (mul_neg_of_neg_of_pos hc hb) r hrtail

theorem rfLoop_sign (f : ℚ → ℚ) (tol : ℚ) (htol : 0 < tol) :
    ∀ (fuel : ℕ) (a b : ℚ) (xPrev : Option ℚ) (k : ℕ)
      (rows : List BracketRow),
      f a * f b < 0 →
      rfLoop f tol a b (f a) (f b) xPrev k fuel = Except.ok rows →
      ∀ r ∈ rows, f r.a * f r.b ≤ 0 := by
  intro fuel
  induction fuel with
  | zero =>
    intro a b xPrev k rows hab hok r hr
    simp only [rfLoop] at hok
    obtain rfl : ([] : List BracketRow) = rows := by simpa using hok
    simp at hr
  | succ n ih =>
    intro a b xPrev k rows hab hok r hr
    simp only [rfLoop] at hok
    split_ifs at hok with h1 hstop hbranch
    · have hrows : [(⟨k, a, b, b - f b * (b - a) / (f b - f a),
          f (b - f b * (b - a) / (f b - f a)),
          Option.map (fun xp => |b - f b * (b - a) / (f b - f a) - xp|)
            xPrev⟩ : BracketRow)] = rows := by
        first
          | exact hok
          | simpa using hok
      subst hrows
      rw [List.mem_singleton] at hr
      subst hr
      exact hab.le
    · rcases (exceptMap_eq_ok _ _ _).mp hok with ⟨rest, hrest, hcons⟩
      subst hcons
      rcases List.mem_cons.mp hr with hr0 | hrtail
      · subst hr0
        exact hab.le
      · exact ih _ _ _ _ rest hbranch hrest r hrtail
    · rcases (exceptMap_eq_ok _ _ _).mp hok with ⟨rest, hrest, hcons⟩
      subst hcons
      rcases List.mem_cons.mp hr with hr0 | hrtail
      · subst hr0
        exact hab.le
      · have hfc : ¬ |f (b - f b * (b - a) / (f b - f a))| < tol := fun hlt =>
          hstop (by simp [brkStop, hlt])
        have hfc0 : f (b - f b * (b - a) / (f b - f a)) ≠ 0 := fun h0 =>
          hfc (by rw [h0]; simpa using htol)
        have hfa0 : f a ≠ 0 := by
          intro h0
          rw [h0, zero_mul] at hab
          exact absurd hab (lt_irrefl 0)
        have hpos : 0 < f a * f (b - f b * (b - a) / (f b - f a)) :=
          (not_lt.mp hbranch).lt_of_ne
            (Ne.symm (mul_ne_zero hfa0 hfc0))
        rcases mul_pos_iff.mp hpos with ⟨ha, hc⟩ | ⟨ha, hc⟩
        · have hb : f b < 0 := by nlinarith
          exact ih _ _ _ _ rest (mul_neg_of_pos_of_neg hc hb) hrest r hrtail
        · have hb : 0 < f b := by nlinarith
          exact ih _ _ _ _ rest (mul_neg_of_neg_of_pos hc hb) hrest r hrtail

/-- C6: for every bisection or regula falsi invocation whose bracket
satisfies the strict precondition `f(a)·f(b) < 0` (with a positive
tolerance, as the data model requires), every record of the returned
sequence has bracket fields with `f(a)·f(b) ≤ 0`: the bracket-update rule
preserves the sign-change property of the recorded bracket. -/
theorem bracket_sign_change_invariant (f : ℚ → ℚ) (a b tol : ℚ) (m : ℕ)
    (hab : f a * f b < 0) (htol : 0 < tol) :
    (∀ rows, bisseccao f a b tol m = Except.ok rows →
      ∀ r ∈ rows, f r.a * f r.b ≤ 0) ∧
    (∀ rows, regula_falsi f a b tol m = Except.ok rows →
      ∀ r ∈ rows, f r.a * f r.b ≤ 0) := by
  constructor
  · intro rows hok r hr
    simp only [bisseccao] at hok
    split_ifs at hok with hpre
    have hrows : bisLoop f tol a b (f a) (f b) none 1 m = rows := by
      first
        | exact hok
        | simpa using hok
    subst hrows
    exact bisLoop_sign f tol htol m a b none 1 hab r hr
  · intro rows hok r hr
    simp only [regula_falsi] at hok
    split_ifs at hok with hpre
    exact rfLoop_sign f tol htol m a b none 1 rows hab hok r hr

/-- Witness for C6: the bracket `[0, 2]` of `f x = x - 1` satisfies the
strict precondition and the invariant holds for both methods there. -/
theorem bracket_sign_change_invariant_witness :
    ((fun x : ℚ => x - 1) 0 * (fun x : ℚ => x - 1) 2 < 0) ∧ ((0 : ℚ) < 1) ∧
    (∀ rows, bisseccao (fun x => x - 1) 0 2 1 2 = Except.ok rows →
      ∀ r ∈ rows, (fun x : ℚ => x - 1) r.a * (fun x : ℚ => x - 1) r.b ≤ 0) ∧
    (∀ rows, regula_falsi (fun x => x - 1) 0 2 1 2 = Except.ok rows →
      ∀ r ∈ rows, (fun x : ℚ => x - 1) r.a * (fun x : ℚ => x - 1) r.b ≤ 0) :=
  ⟨by norm_num, by norm_num,
    (bracket_sign_change_invariant (fun x => x - 1) 0 2 1 2 (by norm_num)
      (by norm_num)).1,
    (bracket_sign_change_invariant (fun x => x - 1) 0 2 1 2 (by norm_num)
      (by norm_num)).2⟩

theorem npre_shift (f df : ℚ → ℚ) (x : ℚ) :
    ∀ n, npre f df (nstep f df x) n = npre f df x (n + 1) := by
  intro n
  induction n with
  | zero => rfl
  | succ n ih => simp [npre, ih]

theorem newtonLoop_ok_ne_nil (f df : ℚ → ℚ) (tol : ℚ) :
    ∀ (fuel : ℕ) (x : ℚ) (k : ℕ) (rows : List NewtonRow), 0 < fuel →
      newtonLoop f df tol x k fuel = Except.ok rows → rows ≠ [] := by
  intro fuel x k rows hf hok
  cases fuel with
  | zero => omega
  | succ n =>
    simp only [newtonLoop] at hok
    split_ifs at hok with h1 h2
    · have : [(⟨k, x - f x / df x, f x, df x, |x - f x / df x - x|⟩ :
          NewtonRow)] = rows := by
        first
          | exact hok
          | simpa using hok
      subst this
      simp
    · rcases (exceptMap_eq_ok _ _ _).mp hok with ⟨rest, hrest, hcons⟩
      subst hcons
      simp

theorem newtonLoop_getD (f df : ℚ → ℚ) (tol : ℚ) :
    ∀ (fuel : ℕ) (x : ℚ) (k : ℕ) (rows : List NewtonRow),
      newtonLoop f df tol x k fuel = Except.ok rows →
      ∀ i, i < rows.length →
        rows.getD i nRow0 = mkNRow f df (npre f df x i) (k + i) := by
  intro fuel
  induction fuel with
  | zero =>
    intro x k rows hok i hi
    simp only [newtonLoop] at hok
    obtain rfl : ([] : List NewtonRow) = rows := by simpa using hok
    simp at hi
  | succ n ih =>
    intro x k rows hok i hi
    simp only [newtonLoop] at hok
    split_ifs at hok with h1 h2
    · have hrows : [(⟨k, x - f x / df x, f x, df x, |x - f x / df x - x|⟩ :
          NewtonRow)] = rows := by
        first
          | exact hok
          | simpa using hok
      subst hrows
      have hi0 : i = 0 := by
        simp only [List.length_singleton] at hi
        omega
      subst hi0
      simp [mkNRow, nstep, npre]
    · rcases (exceptMap_eq_ok _ _ _).mp hok with ⟨rest, hrest, hcons⟩
      subst hcons
      cases i with
      | zero => simp [mkNRow, nstep, npre]
      | succ j =>
        have hj : j < rest.length := by simpa using hi
        rw [List.getD_cons_succ, ih _ _ rest hrest j hj]
        have hsh : npre f df (x - f x / df x) j = npre f df x (j + 1) :=
          npre_shift f df x j
        rw [hsh]
        have hk : k + 1 + j = k + (j + 1) := by omega
        rw [hk]

theorem newtonLoop_not_stop (f df : ℚ → ℚ) (tol : ℚ) :
    ∀ (fuel : ℕ) (x : ℚ) (k : ℕ) (rows : List NewtonRow),
      newtonLoop f df tol x k fuel = Except.ok rows →
      ∀ i, i + 1 < rows.length →
        ¬ (|(rows.getD i nRow0).fx| < tol ∨ (rows.getD i nRow0).erro < tol) := by
  intro fuel
  induction fuel with
  | zero =>
    intro x k rows hok i hi
    simp only [newtonLoop] at hok
    obtain rfl : ([] : List NewtonRow) = rows := by simpa using hok
    simp at hi
  | succ n ih =>
    intro x k rows hok i hi
    simp only [newtonLoop] at hok
    split_ifs at hok with h1 h2
    · have hrows : [(⟨k, x - f x / df x, f x, df x, |x - f x / df x - x|⟩ :
          NewtonRow)] = rows := by
        first
          | exact hok
          | simpa using hok
      subst hrows
      simp only [List.length_singleton] at hi
      omega
    · rcases (exceptMap_eq_ok _ _ _).mp hok with ⟨rest, hrest, hcons⟩
      subst hcons
      cases i with
      | zero => simpa using h2
      | succ j =>
        have hj : j + 1 < rest.length := by simpa using hi
        rw [List.getD_cons_succ]
        exact ih _ _ rest hrest j hj

theorem newtonLoop_last_stop (f df : ℚ → ℚ) (tol : ℚ) :
    ∀ (fuel : ℕ) (x : ℚ) (k : ℕ) (rows : List NewtonRow),
      newtonLoop f df tol x k fuel = Except.ok rows →
      rows ≠ [] → rows.length < fuel →
      (|(rows.getD (rows.length - 1) nRow0).fx| < tol ∨
        (rows.getD (rows.length - 1) nRow0).erro < tol) := by
  intro fuel
  induction fuel with
  | zero =>
    intro x k rows hok hne hlt
    simp at hlt
  | succ n ih =>
    intro x k rows hok hne hlt
    simp only [newtonLoop] at hok
    split_ifs at hok with h1 h2
    · have hrows : [(⟨k, x - f x / df x, f x, df x, |x - f x / df x - x|⟩ :
          NewtonRow)] = rows := by
        first
          | exact hok
          | simpa using hok
      subst hrows
      simpa using h2
    · rcases (exceptMap_eq_ok _ _ _).mp hok with ⟨rest, hrest, hcons⟩
      subst hcons
      have hrlt : rest.length < n := by simpa using hlt
      have hrne : rest ≠ [] :=
        newtonLoop_ok_ne_nil f df tol n _ (k + 1) rest (by omega) hrest
      have hrz : rest.length ≠ 0 := by
        simpa [List.length_eq_zero] using hrne
      rw [List.length_cons]
      have hidx : rest.length + 1 - 1 = (rest.length - 1) + 1 := by omega
      rw [hidx, List.getD_cons_succ]
      exact ih _ _ rest hrest hrne hrlt

/-- C5: in every Newton run that returns a sequence, each recorded row for
iteration `i` (0-based) equals `mkNRow` of the pre-update estimate: its
committed `x` field is the updated estimate `x_new = x - f(x)/f'(x)`, its
`fx` field is the pre-update value `f(x)`, and `erro = |x_new - x|`; no
iteration before the last passes the convergence test
`|fx| < tol ∨ erro < tol` read off that iteration's appended record, and
when the loop stopped before `max_iter` the last appended record does pass
it — so the test uses the pre-update function value together with the new
step size, runs after the record is appended, and the advancing estimate is
committed in the record. -/
theorem newton_termination_commit (f df : ℚ → ℚ) (x0 tol : ℚ) (m : ℕ)
    (rows : List NewtonRow) (hok : newton f df x0 tol m = Except.ok rows) :
    (∀ i, i < rows.length →
      rows.getD i nRow0 = mkNRow f df (npre f df x0 i) (i + 1)) ∧
    (∀ i, i + 1 < rows.length →
      ¬ (|(rows.getD i nRow0).fx| < tol ∨ (rows.getD i nRow0).erro < tol)) ∧
    (rows ≠ [] → rows.length < m →
      (|(rows.getD (rows.length - 1) nRow0).fx| < tol ∨
        (rows.getD (rows.length - 1) nRow0).erro < tol)) := by
  refine ⟨?_, ?_, ?_⟩
  · intro i hi
    have h := newtonLoop_getD f df tol m x0 1 rows hok i hi
    simpa [Nat.add_comm] using h
  · exact fun i hi => newtonLoop_not_stop f df tol m x0 1 rows hok i hi
  · exact fun hne hlt => newtonLoop_last_stop f df tol m x0 1 rows hok hne hlt

/-- Witness for C5: the two-iteration Newton run on `f x = x - 1`,
`f' ≡ 1`, `x0 = 0`, `tol = 1`, `max_iter = 3`: the first record is the
`mkNRow` of the pre-update estimate `0`, and the last (second) record
passes the convergence test. -/
theorem newton_termination_commit_witness :
    newton (fun x => x - 1) (fun _ => 1) 0 1 3 =
      Except.ok [⟨1, 1, -1, 1, 1⟩, ⟨2, 1, 0, 1, 0⟩] ∧
    (([⟨1, 1, -1, 1, 1⟩, ⟨2, 1, 0, 1, 0⟩] : List NewtonRow).getD 0 nRow0 =
      mkNRow (fun x => x - 1) (fun _ => 1)
        (npre (fun x => x - 1) (fun _ => 1) 0 0) 1) ∧
    (|(([⟨1, 1, -1, 1, 1⟩, ⟨2, 1, 0, 1, 0⟩] :
        List NewtonRow).getD 1 nRow0).fx| < 1 ∨
      (([⟨1, 1, -1, 1, 1⟩, ⟨2, 1, 0, 1, 0⟩] :
        List NewtonRow).getD 1 nRow0).erro < 1) := by
  have hok : newton (fun x => x - 1) (fun _ => 1) 0 1 3 =
      Except.ok [⟨1, 1, -1, 1, 1⟩, ⟨2, 1, 0, 1, 0⟩] := by
    norm_num [newton, newtonLoop, Except.map, abs_of_nonneg, abs_of_nonpos]
  refine ⟨hok, ?_, ?_⟩
  · exact (newton_termination_commit (fun x => x - 1) (fun _ => 1) 0 1 3 _
      hok).1 0 (by norm_num)
  · exact (newton_termination_commit (fun x => x - 1) (fun _ => 1) 0 1 3 _
      hok).2.2 (by simp) (by norm_num)

theorem bisLoop_length_le (f : ℚ → ℚ) (tol : ℚ) :
    ∀ (fuel : ℕ) (a b fa fb : ℚ) (xPrev : Option ℚ) (k : ℕ),
      (bisLoop f tol a b fa fb xPrev k fuel).length ≤ fuel := by
  intro fuel
  induction fuel with
  | zero => intro a b fa fb xPrev k; simp [bisLoop]
  | succ n ih =>
    intro a b fa fb xPrev k
    simp only [bisLoop]
    split_ifs with hstop hbranch
    · simp
    · simp only [List.length_cons]
      have := ih a ((a + b) / 2) fa (f ((a + b) / 2))
        (some ((a + b) / 2)) (k + 1)
      omega
    · simp only [List.length_cons]
      have := ih ((a + b) / 2) b (f ((a + b) / 2)) fb
        (some ((a + b) / 2)) (k + 1)
      omega

theorem bisLoop_ne_nil (f : ℚ → ℚ) (tol : ℚ) :
    ∀ (fuel : ℕ) (a b fa fb : ℚ) (xPrev : Option ℚ) (k : ℕ), 0 < fuel →
      bisLoop f tol a b fa fb xPrev k fuel ≠ [] := by
  intro fuel a b fa fb xPrev k hf
  cases fuel with
  | zero => omega
  | succ n =>
    simp only [bisLoop]
    split_ifs <;> simp

theorem bisLoop_iter (f : ℚ → ℚ) (tol : ℚ) :
    ∀ (fuel : ℕ) (a b fa fb : ℚ) (xPrev : Option ℚ) (k i : ℕ),
      i < (bisLoop f tol a b fa fb xPrev k fuel).length →
      ((bisLoop f tol a b fa fb xPrev k fuel).getD i bRow0).iter = k + i := by
  intro fuel
  induction fuel with
  | zero => intro a b fa fb xPrev k i h; simp [bisLoop] at h
  | succ n ih =>
    intro a b fa fb xPrev k i h
    simp only [bisLoop] at h ⊢
    split_ifs at h ⊢ with hstop hbranch
    · have hi : i = 0 := by
        simp only [List.length_singleton] at h
        omega
      subst hi
      simp
    · cases i with
      | zero => simp
      | succ j =>
        have hj : j < (bisLoop f tol a ((a + b) / 2) fa (f ((a + b) / 2))
            (some ((a + b) / 2)) (k + 1) n).length := by simpa using h
        rw [List.getD_cons_succ, ih _ _ _ _ _ _ j hj]
        omega
    · cases i with
      | zero => simp
      | succ j =>
        have hj : j < (bisLoop f tol ((a + b) / 2) b (f ((a + b) / 2)) fb
            (some ((a + b) / 2)) (k + 1) n).length := by simpa using h
        rw [List.getD_cons_succ, ih _ _ _ _ _ _ j hj]
        omega

theorem rfLoop_length_le (f : ℚ → ℚ) (tol : ℚ) :
    ∀ (fuel : ℕ) (a b fa fb : ℚ) (xPrev : Option ℚ) (k : ℕ)
      (rows : List BracketRow),
      rfLoop f tol a b fa fb xPrev k fuel = Except.ok rows →
      rows.length ≤ fuel := by
  intro fuel
  induction fuel with
  | zero =>
    intro a b fa fb xPrev k rows hok
    simp only [rfLoop] at hok
    obtain rfl : ([] : List BracketRow) = rows := by simpa using hok
    simp
  | succ n ih =>
    intro a b fa fb xPrev k rows hok
    simp only [rfLoop] at hok
    split_ifs at hok with h1 hstop hbranch
    · obtain rfl : _ = rows := Except.ok.inj hok
      simp
    · rcases (exceptMap_eq_ok _ _ _).mp hok with ⟨rest, hrest, hcons⟩
      subst hcons
      have := ih _ _ _ _ _ (k + 1) rest hrest
      simp only [List.length_cons]
      omega
    · rcases (exceptMap_eq_ok _ _ _).mp hok with ⟨rest, hrest, hcons⟩
      subst hcons
      have := ih _ _ _ _ _ (k + 1) rest hrest
      simp only [List.length_cons]
      omega

theorem rfLoop_ok_ne_nil (f : ℚ → ℚ) (tol : ℚ) :
    ∀ (fuel : ℕ) (a b fa fb : ℚ) (xPrev : Option ℚ) (k : ℕ)
      (rows : List BracketRow), 0 < fuel →
      rfLoop f tol a b fa fb xPrev k fuel = Except.ok rows → rows ≠ [] := by
  intro fuel a b fa fb xPrev k rows hf hok
  cases fuel with
  | zero => omega
  | succ n =>
    simp only [rfLoop] at hok
    split_ifs at hok with h1 hstop hbranch
    · obtain rfl : _ = rows := Except.ok.inj hok
      simp
    · rcases (exceptMap_eq_ok _ _ _).mp hok with ⟨rest, hrest, hcons⟩
      subst hcons
      simp
    · rcases (exceptMap_eq_ok _ _ _).mp hok with ⟨rest, hrest, hcons⟩
      subst hcons
      simp

theorem rfLoop_iter (f : ℚ → ℚ) (tol : ℚ) :
    ∀ (fuel : ℕ) (a b fa fb : ℚ) (xPrev : Option ℚ) (k : ℕ)
      (rows : List BracketRow),
      rfLoop f tol a b fa fb xPrev k fuel = Except.ok rows →
      ∀ i, i < rows.length → (rows.getD i bRow0).iter = k + i := by
  intro fuel
  induction fuel with
  | zero =>
    intro a b fa fb xPrev k rows hok i hi
    simp only [rfLoop] at hok
    obtain rfl : ([] : List BracketRow) = rows := by simpa using hok
    simp at hi
  | succ n ih =>
    intro a b fa fb xPrev k rows hok i hi
    simp only [rfLoop] at hok
    split_ifs at hok with h1 hstop hbranch
    · obtain rfl : _ = rows := Except.ok.inj hok
      have hi0 : i = 0 := by
        simp only [List.length_singleton] at hi
        omega
      subst hi0
      simp
    · rcases (exceptMap_eq_ok _ _ _).mp hok with ⟨rest, hrest, hcons⟩
      subst hcons
      cases i with
      | zero => simp
      | succ j =>
        have hj : j < rest.length := by simpa using hi
        rw [List.getD_cons_succ, ih _ _ _ _ _ _ rest hrest j hj]
        omega
    · rcases (exceptMap_eq_ok _ _ _).mp hok with ⟨rest, hrest, hcons⟩
      subst hcons
      cases i with
      | zero => simp
      | succ j =>
        have hj : j < rest.length := by simpa using hi
        rw [List.getD_cons_succ, ih _ _ _ _ _ _ rest hrest j hj]
        omega

theorem newtonLoop_length_le (f df : ℚ → ℚ) (tol : ℚ) :
    ∀ (fuel : ℕ) (x : ℚ) (k : ℕ) (rows : List NewtonRow),
      newtonLoop f df tol x k fuel = Except.ok rows →
      rows.length ≤ fuel := by
  intro fuel
  induction fuel with
  | zero =>
    intro x k rows hok
    simp only [newtonLoop] at hok
    obtain rfl : ([] : List NewtonRow) = rows := by simpa using hok
    simp
  | succ n ih =>
    intro x k rows hok
    simp only [newtonLoop] at hok
    split_ifs at hok with h1 h2
    · obtain rfl : _ = rows := Except.ok.inj hok
      simp
    · rcases (exceptMap_eq_ok _ _ _).mp hok with ⟨rest, hrest, hcons⟩
      subst hcons
      have := ih _ (k + 1) rest hrest
      simp only [List.length_cons]
      omega

theorem secLoop_length_le (f : ℚ → ℚ) (tol : ℚ) :
    ∀ (fuel : ℕ) (xPrev x fPrev fx : ℚ) (k : ℕ) (rows : List SecRow),
      secLoop f tol xPrev x fPrev fx k fuel = Except.ok rows →
      rows.length ≤ fuel := by
  intro fuel
  induction fuel with
  | zero =>
    intro xPrev x fPrev fx k rows hok
    simp only [secLoop] at hok
    obtain rfl : ([] : List SecRow) = rows := by simpa using hok
    simp
  | succ n ih =>
    intro xPrev x fPrev fx k rows hok
    simp only [secLoop] at hok
    split_ifs at hok with h1 h2
    · obtain rfl : _ = rows := Except.ok.inj hok
      simp
    · rcases (exceptMap_eq_ok _ _ _).mp hok with ⟨rest, hrest, hcons⟩
      subst hcons
      have := ih _ _ _ _ (k + 1) rest hrest
      simp only [List.length_cons]
      omega

theorem secLoop_ok_ne_nil (f : ℚ → ℚ) (tol : ℚ) :
    ∀ (fuel : ℕ) (xPrev x fPrev fx : ℚ) (k : ℕ) (rows : List SecRow),
      0 < fuel →
      secLoop f tol xPrev x fPrev fx k fuel = Except.ok rows → rows ≠ [] := by
  intro fuel xPrev x fPrev fx k rows hf hok
  cases fuel with
  | zero => omega
  | succ n =>
    simp only [secLoop] at hok
    split_ifs at hok with h1 h2
    · obtain rfl : _ = rows := Except.ok.inj hok
      simp
    · rcases (exceptMap_eq_ok _ _ _).mp hok with ⟨rest, hrest, hcons⟩
      subst hcons
      simp

theorem secLoop_iter (f : ℚ → ℚ) (tol : ℚ) :
    ∀ (fuel : ℕ) (xPrev x fPrev fx : ℚ) (k : ℕ) (rows : List SecRow),
      secLoop f tol xPrev x fPrev fx k fuel = Except.ok rows →
      ∀ i, i < rows.length → (rows.getD i sRow0).iter = k + i := by
  intro fuel
  induction fuel with
  | zero =>
    intro xPrev x fPrev fx k rows hok i hi
    simp only [secLoop] at hok
    obtain rfl : ([] : List SecRow) = rows := by simpa using hok
    simp at hi
  | succ n ih =>
    intro xPrev x fPrev fx k rows hok i hi
    simp only [secLoop] at hok
    split_ifs at hok with h1 h2
    · obtain rfl : _ = rows := Except.ok.inj hok
      have hi0 : i = 0 := by
        simp only [List.length_singleton] at hi
        omega
      subst hi0
      simp
    · rcases (exceptMap_eq_ok _ _ _).mp hok with ⟨rest, hrest, hcons⟩
      subst hcons
      cases i with
      | zero => simp
      | succ j =>
        have hj : j < rest.length := by simpa using hi
        rw [List.getD_cons_succ, ih _ _ _ _ _ rest hrest j hj]
        omega

/-- C8: for every method invocation with valid inputs (positive iteration
cap, preconditions met and no singularity encountered, so the invocation
returns its sequence), the returned iteration sequence has length between
`1` and `max_iter`, and the `iter` field of the `i`-th record (0-based)
equals `i + 1`. -/
theorem sequence_length_one_indexed (f df g : ℚ → ℚ) (a b x0 x1 tol : ℚ)
    (m : ℕ) (hm : 0 < m) :
    (∀ rows, bisseccao f a b tol m = Except.ok rows →
      1 ≤ rows.length ∧ rows.length ≤ m ∧
      ∀ i, i < rows.length → (rows.getD i bRow0).iter = i + 1) ∧
    (∀ rows, regula_falsi f a b tol m = Except.ok rows →
      1 ≤ rows.length ∧ rows.length ≤ m ∧
      ∀ i, i < rows.length → (rows.getD i bRow0).iter = i + 1) ∧
    (1 ≤ (iterativo_linear g x0 tol m).length ∧
      (iterativo_linear g x0 tol m).length ≤ m ∧
      ∀ i, i < (iterativo_linear g x0 tol m).length →
        ((iterativo_linear g x0 tol m).getD i fRow0).iter = i + 1) ∧
    (∀ rows, newton f df x0 tol m = Except.ok rows →
      1 ≤ rows.length ∧ rows.length ≤ m ∧
      ∀ i, i < rows.length → (rows.getD i nRow0).iter = i + 1) ∧
    (∀ rows, secante f x0 x1 tol m = Except.ok rows →
      1 ≤ rows.length ∧ rows.length ≤ m ∧
      ∀ i, i < rows.length → (rows.getD i sRow0).iter = i + 1) := by
  refine ⟨?_, ?_, ⟨?_, ?_, ?_⟩, ?_, ?_⟩
  · intro rows hok
    simp only [bisseccao] at hok
    split_ifs at hok with hpre
    have hrows : bisLoop f tol a b (f a) (f b) none 1 m = rows := by
      first
        | exact hok
        | simpa using hok
    subst hrows
    refine ⟨?_, bisLoop_length_le f tol m a b (f a) (f b) none 1, ?_⟩
    · have hne := bisLoop_ne_nil f tol m a b (f a) (f b) none 1 hm
      have hz : (bisLoop f tol a b (f a) (f b) none 1 m).length ≠ 0 := by
        simpa [List.length_eq_zero] using hne
      omega
    · intro i hi
      have h := bisLoop_iter f tol m a b (f a) (f b) none 1 i hi
      omega
  · intro rows hok
    simp only [regula_falsi] at hok
    split_ifs at hok with hpre
    refine ⟨?_, rfLoop_length_le f tol m a b (f a) (f b) none 1 rows hok, ?_⟩
    · have hne := rfLoop_ok_ne_nil f tol m a b (f a) (f b) none 1 rows hm hok
      have hz : rows.length ≠ 0 := by
        simpa [List.length_eq_zero] using hne
      omega
    · intro i hi
      have h := rfLoop_iter f tol m a b (f a) (f b) none 1 rows hok i hi
      omega
  · have hne := fixLoop_ne_nil g tol m x0 1 hm
    have hz : (iterativo_linear g x0 tol m).length ≠ 0 := by
      simpa [iterativo_linear, List.length_eq_zero] using hne
    omega
  · exact fixLoop_length_le g tol m x0 1
  · intro i hi
    have h := fixLoop_getD g tol m x0 1 i hi
    simp only [iterativo_linear] at h ⊢
    rw [h]
    show 1 + i = i + 1
    omega
  · intro rows hok
    refine ⟨?_, newtonLoop_length_le f df tol m x0 1 rows hok, ?_⟩
    · have hne := newtonLoop_ok_ne_nil f df tol m x0 1 rows hm hok
      have hz : rows.length ≠ 0 := by
        simpa [List.length_eq_zero] using hne
      omega
    · intro i hi
      have h := newtonLoop_getD f df tol m x0 1 rows hok i hi
      rw [h]
      simp only [mkNRow]
      omega
  · intro rows hok
    refine ⟨?_, secLoop_length_le f tol m x0 x1 (f x0) (f x1) 1 rows hok, ?_⟩
    · have hne :=
        secLoop_ok_ne_nil f tol m x0 x1 (f x0) (f x1) 1 rows hm hok
      have hz : rows.length ≠ 0 := by
        simpa [List.length_eq_zero] using hne
      omega
    · intro i hi
      have h := secLoop_iter f tol m x0 x1 (f x0) (f x1) 1 rows hok i hi
      omega

/-- Witness for C8: applying the length and indexing bounds to a concrete
two-iteration bisection run with `max_iter = 3`. -/
theorem sequence_length_one_indexed_witness :
    0 < 3 ∧
    (1 ≤ ([⟨1, 0, 4, 2, 1, none⟩, ⟨2, 0, 2, 1, 0, some 1⟩] :
        List BracketRow).length ∧
      ([⟨1, 0, 4, 2, 1, none⟩, ⟨2, 0, 2, 1, 0, some 1⟩] :
        List BracketRow).length ≤ 3 ∧
      ∀ i, i < ([⟨1, 0, 4, 2, 1, none⟩, ⟨2, 0, 2, 1, 0, some 1⟩] :
          List BracketRow).length →
        (([⟨1, 0, 4, 2, 1, none⟩, ⟨2, 0, 2, 1, 0, some 1⟩] :
          List BracketRow).getD i bRow0).iter = i + 1) := by
  have hok : bisseccao (fun x => x - 1) 0 4 (1/2) 3 =
      Except.ok [⟨1, 0, 4, 2, 1, none⟩, ⟨2, 0, 2, 1, 0, some 1⟩] := by
    norm_num [bisseccao, bisLoop, brkStop, abs_of_nonneg, abs_of_nonpos]
  exact ⟨by norm_num,
    (sequence_length_one_indexed (fun x => x - 1) (fun x => x - 1)
      (fun x => x - 1) 0 4 0 0 (1/2) 3 (by norm_num)).1 _ hok⟩

/-- C10: the zero-denominator check at the top of each secant iteration
precedes the convergence test, so any invocation with `f(x0) = f(x1)`
exactly (in particular when both initial guesses are exact roots and
`|f(x1)| < tol` already holds) raises the zero-denominator `NumericError`
instead of returning a converged one-record sequence; analogously Newton's
zero-derivative check precedes its convergence test, so `newton` raises on
`f'(x0) = 0` even when `|f(x0)| < tol` already holds. -/
theorem singularity_check_precedes_convergence (f df : ℚ → ℚ)
    (x0 x1 tol : ℚ) (m : ℕ) (hm : 0 < m) :
    (f x0 = f x1 → secante f x0 x1 tol m = Except.error Err.numeric) ∧
    (df x0 = 0 → newton f df x0 tol m = Except.error Err.numeric) := by
  obtain ⟨n, rfl⟩ := Nat.exists_eq_succ_of_ne_zero hm.ne'
  constructor
  · intro h
    unfold secante secLoop
    rw [h]
    simp
  · intro h
    unfold newton newtonLoop
    rw [h]
    simp

/-- Witness for C10: with `f ≡ 0`, `df ≡ 0`, `x0 = 0`, `x1 = 1`, `tol = 1`
(both guesses exact roots, `|f(x1)| = 0 < tol`), the secant and Newton
invocations nevertheless raise the numeric error. -/
theorem singularity_check_precedes_convergence_witness :
    (0 < 1 ∧ (fun _ : ℚ => (0 : ℚ)) 0 = (fun _ : ℚ => (0 : ℚ)) 1 ∧
      |(fun _ : ℚ => (0 : ℚ)) 1| < (1 : ℚ)) ∧
    secante (fun _ => (0 : ℚ)) 0 1 1 1 = Except.error Err.numeric ∧
    newton (fun _ => (0 : ℚ)) (fun _ => (0 : ℚ)) 0 1 1 =
      Except.error Err.numeric :=
  ⟨⟨Nat.one_pos, rfl, by norm_num⟩,
    (singularity_check_precedes_convergence (fun _ => (0 : ℚ))
      (fun _ => (0 : ℚ)) 0 1 1 1 Nat.one_pos).1 rfl,
    (singularity_check_precedes_convergence (fun _ => (0 : ℚ))
      (fun _ => (0 : ℚ)) 0 1 1 1 Nat.one_pos).2 rfl⟩
